import Mathlib

/-!
# Verification of the Argon daemon core

Shallow embedding of the daemon-side orchestration core (the Krypton
daemon of the Argon panel): the installation pipeline
(`src/routes/servers.ts`) and the console session / streaming layer
(the `WebSocketManager`).  Each definition is translated from the
TypeScript source; theorems settle the specification's testable
properties against those definitions.

Strings are modelled as Lean `String` / `List Char`; machine numbers as
`Nat` / `Int` (exact rationals `ℚ` where the source divides); external
engine calls (Docker) are abstracted as explicit result parameters.
-/

namespace Argon

/-! ## Path handling of `writeConfigFiles` (daemon `src/routes/servers.ts`)

The source sanitizes each declared config-file path with

  `const safePath = path.normalize(file.path).replace(/^(\.\.[\/\\])+/, '');`
  `const fullPath = path.join(volumePath, safePath);`

We model a POSIX path by its list of `/`-separated components (each
component is assumed free of `'/'` and `'\\'` characters; the regex
additionally eats a literal `..\` *inside* a component, which the
component representation cannot express — the theorems below carry that
assumption explicitly).  `file.path` is a relative path (the claim's
subject); `volumePath` is the already-resolved absolute volume root. -/

/-- Worker for `path.normalize` on a *relative* path: drops empty and
`"."` components, resolves `".."` against the accumulated stack, and
keeps leading `".."` components (a relative path may start with
`".."`).  `acc` is the processed prefix, reversed. -/
def normAux (acc : List String) : List String → List String
  | [] => acc.reverse
  | c :: rest =>
    if c = "" ∨ c = "." then normAux acc rest
    else if c = ".." then
      match acc with
      | [] => normAux [".."] rest
      | t :: acc2 => if t = ".." then normAux (".." :: t :: acc2) rest else normAux acc2 rest
    else normAux (c :: acc) rest

/-- `path.normalize` (POSIX, relative input), on components.
`[]` stands for the normalized path `"."`. -/
def normalizeRel (p : List String) : List String := normAux [] p

/-- The regex replacement `.replace(/^(\.\.[\/\\])+/, '')` on a
normalized relative path: it removes leading `".."` components, each of
which must be *followed by a separator* in the rendered string — hence
a final `".."` with nothing after it is NOT removed. -/
def stripTraversal : List String → List String
  | c :: rest => if c = ".." ∧ rest ≠ [] then stripTraversal rest else c :: rest
  | [] => []

/-- Worker for `path.join`'s normalization of an *absolute* path: like
the relative case but a `".."` at the root is simply dropped. -/
def absAux (acc : List String) : List String → List String
  | [] => acc.reverse
  | c :: rest =>
    if c = "" ∨ c = "." then absAux acc rest
    else if c = ".." then
      match acc with
      | [] => absAux [] rest
      | _ :: acc2 => absAux acc2 rest
    else absAux (c :: acc) rest

/-- `path.join(volumePath, safePath)`: concatenate and normalize as an
absolute path (`volumePath` is absolute). -/
def joinAbs (vol rel : List String) : List String := absAux [] (vol ++ rel)

/-- The full path the config-file writer writes to, for a declared
relative path `p` (source lines 74–75 of the servers router). -/
def writeTargetPath (vol p : List String) : List String :=
  joinAbs vol (stripTraversal (normalizeRel p))

/-- `p` lies strictly inside the directory `vol`: `vol` is a proper
prefix of `p`'s components. -/
def strictlyInside (vol p : List String) : Bool :=
  vol.isPrefixOf p && p != vol

/-- A path component that survives normalization as plain text. -/
def normalComp (c : String) : Prop := c ≠ "" ∧ c ≠ "." ∧ c ≠ ".."

instance : DecidablePred normalComp := fun c => by
  unfold normalComp
  infer_instance

/-- A component of a declared path within the model's domain: it
contains no separator and no backslash (see the regex caveat above). -/
def sepFreeComp (c : String) : Bool := c.data.all fun ch => ch ≠ '/' ∧ ch ≠ '\\'

theorem mem_stripTraversal : ∀ (l : List String), ∀ c ∈ stripTraversal l, c ∈ l := by
  intro l
  induction l with
  | nil => intro c h; simp [stripTraversal] at h
  | cons a rest ih =>
    intro c h
    simp only [stripTraversal] at h
    split at h
    · exact List.mem_cons_of_mem _ (ih c h)
    · exact h

theorem mem_normAux : ∀ (p acc : List String), (∀ c ∈ acc, c ≠ "" ∧ c ≠ ".") →
    ∀ c ∈ normAux acc p, c ≠ "" ∧ c ≠ "." := by
  intro p
  induction p with
  | nil =>
    intro acc hacc c hc
    simp only [normAux] at hc
    exact hacc c (List.mem_reverse.mp hc)
  | cons a rest ih =>
    intro acc hacc c hc
    simp only [normAux] at hc
    by_cases h1 : a = "" ∨ a = "."
    · rw [if_pos h1] at hc
      exact ih acc hacc c hc
    · rw [if_neg h1] at hc
      by_cases h2 : a = ".."
      · rw [if_pos h2] at hc
        cases acc with
        | nil =>
          refine ih [".."] ?_ c hc
          intro x hx
          rcases List.mem_singleton.mp hx with rfl
          exact ⟨by decide, by decide⟩
        | cons t acc2 =>
          have hc2 : c ∈ if t = ".." then normAux (".." :: t :: acc2) rest
              else normAux acc2 rest := hc
          by_cases h3 : t = ".."
          · rw [if_pos h3] at hc2
            refine ih (".." :: t :: acc2) ?_ c hc2
            intro x hx
            rcases List.mem_cons.mp hx with rfl | hx2
            · exact ⟨by decide, by decide⟩
            · exact hacc x hx2
          · rw [if_neg h3] at hc2
            exact ih acc2 (fun x hx => hacc x (List.mem_cons_of_mem _ hx)) c hc2
      · rw [if_neg h2] at hc
        refine ih (a :: acc) ?_ c hc
        intro x hx
        rcases List.mem_cons.mp hx with rfl | hx2
        · exact ⟨fun h => h1 (Or.inl h), fun h => h1 (Or.inr h)⟩
        · exact hacc x hx2

theorem absAux_of_normal : ∀ (l acc : List String),
    (∀ c ∈ l, c ≠ "" ∧ c ≠ "." ∧ c ≠ "..") → absAux acc l = acc.reverse ++ l := by
  intro l
  induction l with
  | nil => intro acc _; simp [absAux]
  | cons a rest ih =>
    intro acc h
    have ha := h a (List.mem_cons_self a rest)
    simp only [absAux]
    rw [if_neg (by simp [ha.1, ha.2.1]), if_neg ha.2.2]
    rw [ih (a :: acc) (fun c hc => h c (List.mem_cons_of_mem _ hc))]
    simp

theorem isPrefixOf_append_self (l t : List String) : l.isPrefixOf (l ++ t) = true := by
  induction l with
  | nil => simp [List.isPrefixOf]
  | cons a rest ih => simp [List.isPrefixOf, ih]

/-- C2 (counterexample): the claim fails as stated.  The declared
config path `../..` (which contains parent-directory traversal)
normalizes to `../..`; the regex only strips `..` components that are
followed by a separator, leaving a bare `..`, so the written path
resolves to the *parent* of the volume root — not strictly inside it. -/
theorem C2_counterexample :
    writeTargetPath ["srv", "volumes", "abc"] ["..", ".."] = ["srv", "volumes"] ∧
    strictlyInside ["srv", "volumes", "abc"]
      (writeTargetPath ["srv", "volumes", "abc"] ["..", ".."]) = false := by
  constructor
  · decide
  · decide

/-- C2 (amended): for every declared config file whose sanitized path
(`path.normalize` then stripping leading `../` groups) retains at least
one component and no residual `..` component — in particular any path
like `../../etc/passwd` — the written path resolves strictly inside the
volume root.  The only escapes are paths whose normal form is a bare
chain of `..` components (e.g. `..`, `../..`), which resolve to the
root itself or an ancestor directory. -/
theorem C2_amended (vol p : List String)
    (hvol : ∀ c ∈ vol, normalComp c)
    (_hdom : ∀ c ∈ p, sepFreeComp c = true)
    (hne : stripTraversal (normalizeRel p) ≠ [])
    (hdd : ".." ∉ stripTraversal (normalizeRel p)) :
    strictlyInside vol (writeTargetPath vol p) = true := by
  set m := stripTraversal (normalizeRel p) with hm
  have hmem : ∀ c ∈ m, c ≠ "" ∧ c ≠ "." ∧ c ≠ ".." := by
    intro c hc
    have h1 := mem_normAux p [] (by intro x hx; cases hx) c
      (mem_stripTraversal (normalizeRel p) c hc)
    refine ⟨h1.1, h1.2, ?_⟩
    intro h
    exact hdd (h ▸ hc)
  have hall : ∀ c ∈ vol ++ m, c ≠ "" ∧ c ≠ "." ∧ c ≠ ".." := by
    intro c hc
    rcases List.mem_append.mp hc with hv | hmm
    · exact hvol c hv
    · exact hmem c hmm
  have htarget : writeTargetPath vol p = vol ++ m := by
    rw [writeTargetPath, ← hm, joinAbs, absAux_of_normal (vol ++ m) [] hall]
    simp
  rw [htarget, strictlyInside]
  have hneq : vol ++ m ≠ vol := by
    intro h
    have := congrArg List.length h
    simp only [List.length_append] at this
    exact hne (List.length_eq_zero.mp (by omega))
  simp [isPrefixOf_append_self, hneq]

/-- Witness for `C2_amended`: the spec's own example `../../etc/passwd`
resolves to `<root>/etc/passwd`, strictly inside the volume root. -/
theorem C2_amended_witness :
    strictlyInside ["srv", "volumes", "abc"]
      (writeTargetPath ["srv", "volumes", "abc"] ["..", "..", "etc", "passwd"]) = true :=
  C2_amended ["srv", "volumes", "abc"] ["..", "..", "etc", "passwd"]
    (by decide) (by decide) (by decide) (by decide)

/-! ## Variable Processor (daemon `src/routes/servers.ts`,
`validateVariableValue` and `processVariables`)

JS strings are modelled as `List Char` (JS `length` counts UTF-16
units; this coincides with the char count on the basic plane). -/

/-- The whitespace class skipped by JS `parseInt` and removed by JS
`String.prototype.trim` (restricted to the common ASCII members; the
full class also holds Unicode space separators, not modelled). -/
def isJsSpace (c : Char) : Bool :=
  c == ' ' || c == '\t' || c == '\n' || c == '\r' || c.toNat == 11 || c.toNat == 12

/-- JS `String.prototype.split` with a single-character separator. -/
def splitOnChar (sep : Char) : List Char → List (List Char)
  | [] => [[]]
  | c :: rest =>
    match splitOnChar sep rest with
    | [] => [[]]
    | g :: gs => if c = sep then [] :: g :: gs else (c :: g) :: gs

def isAsciiDigit (c : Char) : Bool := '0' ≤ c && c ≤ '9'

def digitsToNat (ds : List Char) : Nat :=
  ds.foldl (fun acc c => 10 * acc + (c.toNat - '0'.toNat)) 0

def parseDigits (l : List Char) : Option Nat :=
  let ds := l.takeWhile isAsciiDigit
  if ds = [] then none else some (digitsToNat ds)

/-- JS `parseInt(s, 10)`: skip leading whitespace, optional sign, then
the longest prefix of decimal digits; `NaN` (here `none`) when there is
no digit. -/
def jsParseInt (s : List Char) : Option Int :=
  let s1 := s.dropWhile isJsSpace
  match s1 with
  | '-' :: rest => (parseDigits rest).map (fun n => -(n : Int))
  | '+' :: rest => (parseDigits rest).map (fun n => (n : Int))
  | _ => (parseDigits s1).map (fun n => (n : Int))

/-- The rule loop of `validateVariableValue` (source lines 109–127): a
`switch (true)` over the pipe-delimited rules in order.  `nullable`
accepts immediately when the value is empty; `string` is a no-op;
`max:` parses its bound and rejects a longer value; unknown rules are
skipped; reaching the end accepts. -/
def validateLoop (value : List Char) : List (List Char) → Bool
  | [] => true
  | r :: rest =>
    if r = "nullable".data then
      if value = [] then true else validateLoop value rest
    else if r = "string".data then validateLoop value rest
    else if ("max:".data).isPrefixOf r then
      match jsParseInt (r.drop 4) with
      | some m => if (value.length : Int) > m then false else validateLoop value rest
      | none => validateLoop value rest
    else validateLoop value rest

/-- `validateVariableValue(value, rules)` of the daemon servers router. -/
def validateVariableValue (value rules : String) : Bool :=
  validateLoop value.data (splitOnChar '|' rules.data)

/-- One entry of `ServerConfig.variables`. -/
structure VariableDef where
  name : String
  defaultValue : String
  currentValue : Option String
  rules : String

/-- `variable.currentValue ?? variable.defaultValue`. -/
def effectiveValue (v : VariableDef) : String := v.currentValue.getD v.defaultValue

/-- `name.toLowerCase().replace(/ /g, '_')` (ASCII lowering modelled by
`Char.toLower`). -/
def mangleName (s : List Char) : List Char :=
  (s.map Char.toLower).map fun c => if c = ' ' then '_' else c

/-- The placeholder token `%name%` built for a variable. -/
def placeholderOf (v : VariableDef) : List Char := '%' :: (mangleName v.name.data ++ ['%'])

/-- JS `String.prototype.replace` with a plain string pattern: replaces
the first occurrence only; a string with no occurrence is returned
unchanged.  (`$`-escapes in the replacement are not modelled.) -/
def listReplaceFirst (pat rep : List Char) : List Char → List Char
  | [] => if pat = [] then rep else []
  | c :: rest =>
    if pat.isPrefixOf (c :: rest) then rep ++ (c :: rest).drop pat.length
    else c :: listReplaceFirst pat rep rest

/-- `pat` occurs as a contiguous substring of the second argument. -/
def occursIn (pat : List Char) : List Char → Bool
  | [] => pat.isPrefixOf []
  | c :: rest => pat.isPrefixOf (c :: rest) || occursIn pat rest

/-- `processVariables(input, variables)` (source lines 92–107): for each
variable in order, build its placeholder, resolve its effective value,
throw if the value violates the rules, else substitute the first
occurrence of the placeholder.  (The source's error text reads
"doesn't"; the apostrophe is elided here.) -/
def processVariables (vars : List VariableDef) (input : List Char) : Except String (List Char) :=
  match vars with
  | [] => .ok input
  | v :: rest =>
    if validateVariableValue (effectiveValue v) v.rules then
      processVariables rest (listReplaceFirst (placeholderOf v) (effectiveValue v).data input)
    else .error ("Variable " ++ v.name ++ " value does not match rules: " ++ v.rules)

theorem validateLoop_reject (value : List Char) :
    ∀ (l : List (List Char)) (r : List Char) (N : Int),
      r ∈ l → ("max:".data).isPrefixOf r = true → jsParseInt (r.drop 4) = some N →
      (value.length : Int) > N → value ≠ [] → validateLoop value l = false := by
  intro l
  induction l with
  | nil => intro r N hr _ _ _ _; cases hr
  | cons a rest ih =>
    intro r N hr hpre hparse hlen hval
    simp only [validateLoop]
    by_cases h1 : a = "nullable".data
    · rw [if_pos h1, if_neg hval]
      rcases List.mem_cons.mp hr with rfl | hr2
      · rw [h1] at hpre; exact absurd hpre (by decide)
      · exact ih r N hr2 hpre hparse hlen hval
    · rw [if_neg h1]
      by_cases h2 : a = "string".data
      · rw [if_pos h2]
        rcases List.mem_cons.mp hr with rfl | hr2
        · rw [h2] at hpre; exact absurd hpre (by decide)
        · exact ih r N hr2 hpre hparse hlen hval
      · rw [if_neg h2]
        by_cases h3 : ("max:".data).isPrefixOf a = true
        · rw [if_pos h3]
          cases hp : jsParseInt (a.drop 4) with
          | some m =>
            show (if (value.length : Int) > m then false else validateLoop value rest) = false
            by_cases hm : (value.length : Int) > m
            · rw [if_pos hm]
            · rw [if_neg hm]
              rcases List.mem_cons.mp hr with rfl | hr2
              · rw [hp] at hparse
                injection hparse with hNm
                omega
              · exact ih r N hr2 hpre hparse hlen hval
          | none =>
            rcases List.mem_cons.mp hr with rfl | hr2
            · rw [hp] at hparse; cases hparse
            · exact ih r N hr2 hpre hparse hlen hval
        · rw [if_neg h3]
          rcases List.mem_cons.mp hr with rfl | hr2
          · exact absurd hpre h3
          · exact ih r N hr2 hpre hparse hlen hval

theorem validateLoop_accept (value : List Char) :
    ∀ (l : List (List Char)),
      (∀ r ∈ l, ("max:".data).isPrefixOf r = true →
        ∀ M : Int, jsParseInt (r.drop 4) = some M → (value.length : Int) ≤ M) →
      validateLoop value l = true := by
  intro l
  induction l with
  | nil => intro _; rfl
  | cons a rest ih =>
    intro h
    have hrest := fun r hr => h r (List.mem_cons_of_mem a hr)
    simp only [validateLoop]
    by_cases h1 : a = "nullable".data
    · rw [if_pos h1]
      by_cases hv : value = []
      · rw [if_pos hv]
      · rw [if_neg hv]; exact ih hrest
    · rw [if_neg h1]
      by_cases h2 : a = "string".data
      · rw [if_pos h2]; exact ih hrest
      · rw [if_neg h2]
        by_cases h3 : ("max:".data).isPrefixOf a = true
        · rw [if_pos h3]
          cases hp : jsParseInt (a.drop 4) with
          | some m =>
            show (if (value.length : Int) > m then false else validateLoop value rest) = true
            have hle := h a (List.mem_cons_self a rest) h3 m hp
            rw [if_neg (by omega)]
            exact ih hrest
          | none => exact ih hrest
        · rw [if_neg h3]; exact ih hrest

/-- C4 (counterexample): with the rule string `max:3|max:10`, the value
`hello` has length 5 ≤ 10, the list contains `max:10`, the
nullable-and-empty escape does not apply — yet validation rejects it,
because the *other* rule `max:3` also applies.  So acceptance does not
hold "regardless of the other rules". -/
theorem C4_counterexample :
    ("max:10").data ∈ splitOnChar '|' ("max:3|max:10").data ∧
    ("hello").data.length ≤ 10 ∧
    ¬(("nullable").data ∈ splitOnChar '|' ("max:3|max:10").data ∧ ("hello").data = []) ∧
    validateVariableValue "hello" "max:3|max:10" = false := by
  refine ⟨by decide, by decide, by decide, by decide⟩

/-- C4 (amended): for a rule list containing `max:N` (N ≥ 0), every
value longer than N is rejected; a value is accepted whenever its
length is within the bound of *every* `max:` rule of the list (so a
value of length ≤ N may still be rejected by another, smaller `max:M`
rule, as in the counterexample).  `nullable` plays no role in either
direction for non-negative bounds. -/
theorem C4_amended (value rules r : String) (N : Int)
    (hmem : r.data ∈ splitOnChar '|' rules.data)
    (hpre : ("max:".data).isPrefixOf r.data = true)
    (hparse : jsParseInt (r.data.drop 4) = some N)
    (hN : 0 ≤ N) :
    ((value.data.length : Int) > N → validateVariableValue value rules = false) ∧
    ((∀ r2 ∈ splitOnChar '|' rules.data, ("max:".data).isPrefixOf r2 = true →
        ∀ M : Int, jsParseInt (r2.drop 4) = some M → (value.data.length : Int) ≤ M) →
      validateVariableValue value rules = true) := by
  constructor
  · intro hlen
    have hval : value.data ≠ [] := by
      intro h
      rw [h] at hlen
      simp at hlen
      omega
    exact validateLoop_reject value.data _ r.data N hmem hpre hparse hlen hval
  · intro hall
    exact validateLoop_accept value.data _ hall

/-- Witness for `C4_amended`: value `hi` against rules `max:5`. -/
theorem C4_amended_witness : validateVariableValue "hi" "max:5" = true := by
  refine (C4_amended "hi" "max:5" "max:5" 5 (by decide) (by decide) (by decide)
    (by decide)).2 ?_
  intro r2 hmem hpre2 M hM
  have hsplit : splitOnChar '|' ("max:5").data = [("max:5").data] := by decide
  rw [hsplit] at hmem
  rcases List.mem_singleton.mp hmem with rfl
  have h5 : jsParseInt (("max:5").data.drop 4) = some 5 := by decide
  rw [h5] at hM
  injection hM with hM5
  subst hM5
  decide
theorem isPrefixOf_append_char (l t : List Char) : l.isPrefixOf (l ++ t) = true := by
  induction l with
  | nil => simp [List.isPrefixOf]
  | cons a rest ih => simp [List.isPrefixOf, ih]

theorem isPrefixOf_of_append : ∀ (pat l t : List Char),
    pat.isPrefixOf (l ++ t) = true → pat.length ≤ l.length → pat.isPrefixOf l = true := by
  intro pat
  induction pat with
  | nil => intro l t _ _; simp [List.isPrefixOf]
  | cons p ps ih =>
    intro l t hpre hlen
    cases l with
    | nil => simp at hlen
    | cons a as =>
      simp only [List.cons_append, List.isPrefixOf, Bool.and_eq_true] at hpre ⊢
      refine ⟨hpre.1, ih as t hpre.2 ?_⟩
      simp only [List.length_cons] at hlen
      omega

theorem occursIn_of_isPrefixOf {pat s : List Char} (h : pat.isPrefixOf s = true) :
    occursIn pat s = true := by
  cases s with
  | nil => simp [occursIn, h]
  | cons c rest => simp [occursIn, h]

theorem occursIn_cons_false {pat : List Char} {c : Char} {rest : List Char}
    (h : occursIn pat (c :: rest) = false) :
    pat.isPrefixOf (c :: rest) = false ∧ occursIn pat rest = false := by
  simp only [occursIn, Bool.or_eq_false_iff] at h
  exact h

theorem listReplaceFirst_of_not_occurs (pat rep : List Char) :
    ∀ s, pat ≠ [] → occursIn pat s = false → listReplaceFirst pat rep s = s := by
  intro s
  induction s with
  | nil => intro hp _; simp [listReplaceFirst, hp]
  | cons c rest ih =>
    intro hp h
    have h2 := occursIn_cons_false h
    simp only [listReplaceFirst]
    rw [if_neg (by simp [h2.1]), ih hp h2.2]

/-- When the first occurrence of `pat` starts exactly at position
`pre.length` (no occurrence starts earlier: `pat` does not occur in
`pre ++ pat.dropLast`), the replacement rewrites exactly that
occurrence and leaves `pre` and `tail` verbatim. -/
theorem not_isPrefixOf_shift (pat : List Char) (hp : pat ≠ []) (c : Char)
    (pre2 tail : List Char)
    (hnocc : pat.isPrefixOf (c :: (pre2 ++ pat.dropLast)) = false) :
    pat.isPrefixOf (c :: (pre2 ++ pat ++ tail)) = false := by
  cases hx : pat.isPrefixOf (c :: (pre2 ++ pat ++ tail)) with
  | false => rfl
  | true =>
    exfalso
    have hdecomp : c :: (pre2 ++ pat ++ tail) =
        (c :: (pre2 ++ pat.dropLast)) ++ (pat.getLast hp :: tail) := by
      conv_lhs => rw [← List.dropLast_append_getLast hp]
      simp
    rw [hdecomp] at hx
    have hlen : pat.length ≤ (c :: (pre2 ++ pat.dropLast)).length := by
      have h1 : 1 ≤ pat.length := by
        cases pat with
        | nil => exact absurd rfl hp
        | cons q qs => simp
      simp only [List.length_cons, List.length_append, List.length_dropLast]
      omega
    have h2 := isPrefixOf_of_append pat _ _ hx hlen
    rw [hnocc] at h2
    cases h2

/-- When the first occurrence of `pat` starts exactly at position
`pre.length` (no occurrence starts earlier: `pat` does not occur in
`pre ++ pat.dropLast`), the replacement rewrites exactly that
occurrence and leaves `pre` and `tail` verbatim. -/
theorem listReplaceFirst_at (pat rep : List Char) (hp : pat ≠ []) :
    ∀ (pre tail : List Char),
      occursIn pat (pre ++ pat.dropLast) = false →
      listReplaceFirst pat rep (pre ++ pat ++ tail) = pre ++ rep ++ tail := by
  intro pre
  induction pre with
  | nil =>
    intro tail _
    cases pat with
    | nil => exact absurd rfl hp
    | cons p ps =>
      show listReplaceFirst (p :: ps) rep (p :: (ps ++ tail)) = rep ++ tail
      simp only [listReplaceFirst]
      rw [if_pos]
      · simp [List.drop_left]
      · show (p :: ps).isPrefixOf (p :: (ps ++ tail)) = true
        exact isPrefixOf_append_char (p :: ps) tail
  | cons c pre2 ih =>
    intro tail hocc
    have hocc2 : occursIn pat (c :: (pre2 ++ pat.dropLast)) = false := hocc
    have hsplit := occursIn_cons_false hocc2
    have hne := not_isPrefixOf_shift pat hp c pre2 tail hsplit.1
    show listReplaceFirst pat rep (c :: (pre2 ++ pat ++ tail)) = c :: (pre2 ++ rep ++ tail)
    simp only [listReplaceFirst]
    rw [if_neg (show ¬pat.isPrefixOf (c :: (pre2 ++ pat ++ tail)) = true from by
      rw [hne]; exact Bool.false_ne_true), ih tail hsplit.2]

theorem processVariables_ok (vars : List VariableDef)
    (hvalid : ∀ v ∈ vars, validateVariableValue (effectiveValue v) v.rules = true) :
    ∀ tmpl, ∃ out, processVariables vars tmpl = Except.ok out := by
  induction vars with
  | nil => intro tmpl; exact ⟨tmpl, rfl⟩
  | cons v rest ih =>
    intro tmpl
    have hv := hvalid v (List.mem_cons_self v rest)
    simp only [processVariables, hv, if_true]
    exact ih (fun w hw => hvalid w (List.mem_cons_of_mem v hw)) _

theorem placeholderOf_ne_nil (v : VariableDef) : placeholderOf v ≠ [] := by
  simp [placeholderOf]

/-- C9 (counterexample): the claim fails as stated.  In the template
`%bar%foo%` the token `%foo%` (present in the input, with no variable
named `foo`) shares its opening `%` with the closing `%` of `%bar%`;
substituting `%bar%` ↦ `V` yields `Vfoo%`, in which `%foo%` no longer
appears. -/
theorem C9_counterexample :
    occursIn ("%foo%").data ("%bar%foo%").data = true ∧
    mangleName ("bar").data ≠ ("foo").data ∧
    processVariables [⟨"bar", "V", none, ""⟩] ("%bar%foo%").data =
      Except.ok ("Vfoo%").data ∧
    occursIn ("%foo%").data ("Vfoo%").data = false := by
  refine ⟨by decide, by decide, by rfl, by decide⟩

/-- C9 (amended): variable processing never raises an error on account
of an unresolved placeholder (an error arises only from rule
validation); and every unresolved placeholder survives verbatim
whenever no supplied variable's placeholder occurs in the template —
substitution then returns the template unchanged.  (An unresolved token
*overlapping* a defined placeholder's replaced occurrence can be
destroyed, as the counterexample shows.) -/
theorem C9_amended (vars : List VariableDef) (tmpl : List Char)
    (hvalid : ∀ v ∈ vars, validateVariableValue (effectiveValue v) v.rules = true) :
    (∃ out, processVariables vars tmpl = Except.ok out) ∧
    ((∀ v ∈ vars, occursIn (placeholderOf v) tmpl = false) →
      processVariables vars tmpl = Except.ok tmpl) := by
  constructor
  · exact processVariables_ok vars hvalid tmpl
  · intro hocc
    induction vars with
    | nil => rfl
    | cons v rest ih =>
      have hv := hvalid v (List.mem_cons_self v rest)
      simp only [processVariables, hv, if_true]
      rw [listReplaceFirst_of_not_occurs _ _ tmpl (placeholderOf_ne_nil v)
        (hocc v (List.mem_cons_self v rest))]
      exact ih (fun w hw => hvalid w (List.mem_cons_of_mem v hw))
        (fun w hw => hocc w (List.mem_cons_of_mem v hw))

/-- Witness for `C9_amended`: a template whose only placeholder
`%port%` matches no supplied variable passes through unchanged. -/
theorem C9_amended_witness :
    processVariables [⟨"bar", "V", none, ""⟩] ("run %port% now").data =
      Except.ok ("run %port% now").data :=
  (C9_amended [⟨"bar", "V", none, ""⟩] ("run %port% now").data (by decide)).2 (by decide)

/-- C10 (counterexample): the claim fails as stated.  In
`%a%x%a%b%` with variables `a ↦ X` and `b ↦ Y`, the placeholder `%a%`
occurs twice (disjointly); substituting `a` replaces the first,
yielding `Xx%a%b%`, but substituting `b` then consumes `%b%`, whose
opening `%` is the closing `%` of the remaining `%a%` — the output is
`Xx%aY`, in which the second occurrence of `%a%` is no longer literal. -/
theorem C10_counterexample :
    occursIn ("%a%").data ("%a%x%a%b%").data = true ∧
    occursIn ("%a%").data (("%a%x%a%b%").data.drop 3) = true ∧
    processVariables [⟨"a", "X", none, ""⟩, ⟨"b", "Y", none, ""⟩] ("%a%x%a%b%").data =
      Except.ok ("Xx%aY").data ∧
    occursIn ("%a%").data ("Xx%aY").data = false := by
  refine ⟨by decide, by decide, by rfl, by decide⟩

/-- C10 (amended): each variable's own substitution step replaces only
the first occurrence of its placeholder: when the first occurrence
starts at position `pre.length`, everything after it — including any
further occurrences in `tail` — is preserved verbatim by that step (for
a single variable, in the processed output).  Substitutions for *later*
variables can still consume such an occurrence, as the counterexample
shows. -/
theorem C10_amended (v : VariableDef) (pre tail : List Char)
    (hvalid : validateVariableValue (effectiveValue v) v.rules = true)
    (hocc : occursIn (placeholderOf v) (pre ++ (placeholderOf v).dropLast) = false) :
    processVariables [v] (pre ++ placeholderOf v ++ tail) =
      Except.ok (pre ++ (effectiveValue v).data ++ tail) := by
  simp only [processVariables, hvalid, if_true]
  rw [listReplaceFirst_at (placeholderOf v) (effectiveValue v).data
    (placeholderOf_ne_nil v) pre tail hocc]

/-- Witness for `C10_amended`: in `cmd %a% %a% end` only the first
`%a%` is substituted; the second survives literally. -/
theorem C10_amended_witness :
    processVariables [⟨"a", "X", none, ""⟩]
      (("cmd ").data ++ placeholderOf ⟨"a", "X", none, ""⟩ ++ (" %a% end").data) =
      Except.ok (("cmd ").data ++ (effectiveValue ⟨"a", "X", none, ""⟩).data ++
        (" %a% end").data) :=
  C10_amended ⟨"a", "X", none, ""⟩ ("cmd ").data (" %a% end").data (by decide) (by decide)

/-! ## Log Frame Decoder (`WebSocketManager.attachLogs`, lines 299–314)

Each read chunk is parsed as one engine multiplex frame: byte 0 is the
stream-origin tag, bytes 4–7 a big-endian payload length; the payload
is decoded as UTF-8, trimmed, and broadcast unless empty. -/

/-- U+FFFD, produced by Node's UTF-8 decoder for malformed input. -/
def replacementChar : Char := Char.ofNat 0xFFFD

def isCont (b : Nat) : Bool := decide (0x80 ≤ b ∧ b ≤ 0xBF)

/-- Worker for UTF-8 decoding; `fuel` bounds the number of decoded
units (it starts at the byte count, and every step consumes at least
one byte). -/
def utf8DecodeAux : Nat → List Nat → List Char
  | _, [] => []
  | 0, _ => []
  | fuel + 1, b :: rest =>
    if b < 0x80 then Char.ofNat b :: utf8DecodeAux fuel rest
    else if 0xC2 ≤ b ∧ b ≤ 0xDF then
      match rest with
      | b2 :: rest2 =>
        if isCont b2 then Char.ofNat ((b - 0xC0) * 64 + (b2 - 0x80)) :: utf8DecodeAux fuel rest2
        else replacementChar :: utf8DecodeAux fuel rest
      | [] => [replacementChar]
    else if 0xE0 ≤ b ∧ b ≤ 0xEF then
      match rest with
      | b2 :: b3 :: rest3 =>
        if isCont b2 ∧ isCont b3 then
          Char.ofNat (((b - 0xE0) * 64 + (b2 - 0x80)) * 64 + (b3 - 0x80))
            :: utf8DecodeAux fuel rest3
        else replacementChar :: utf8DecodeAux fuel rest
      | _ => replacementChar :: utf8DecodeAux fuel rest
    else if 0xF0 ≤ b ∧ b ≤ 0xF4 then
      match rest with
      | b2 :: b3 :: b4 :: rest4 =>
        if isCont b2 ∧ isCont b3 ∧ isCont b4 then
          Char.ofNat ((((b - 0xF0) * 64 + (b2 - 0x80)) * 64 + (b3 - 0x80)) * 64 + (b4 - 0x80))
            :: utf8DecodeAux fuel rest4
        else replacementChar :: utf8DecodeAux fuel rest
      | _ => replacementChar :: utf8DecodeAux fuel rest
    else replacementChar :: utf8DecodeAux fuel rest

/-- `Buffer.toString('utf8')`: UTF-8 decoding of a byte list (malformed
sequences yield U+FFFD; the exact count of replacement characters on
truncated sequences is approximate, which no theorem below relies on). -/
def utf8Decode (l : List Nat) : List Char := utf8DecodeAux l.length l

/-- JS `String.prototype.trim`: strip the whitespace class from both
ends. -/
def jsTrim (s : List Char) : List Char :=
  ((s.dropWhile isJsSpace).reverse.dropWhile isJsSpace).reverse

/-- The per-chunk log handler: `readUInt8(0)` is the stream-origin tag
(`1` ↦ primary/INFO, anything else ↦ diagnostic/ERROR),
`readUInt32BE(4)` the payload length; `slice` clamps to the chunk; the
trimmed UTF-8 payload is broadcast unless empty.  A chunk shorter than
the 8-byte header makes the reads throw, which the `catch` swallows —
nothing is emitted. -/
def decodeLogChunk (chunk : List Nat) : Option (Bool × List Char) :=
  match chunk with
  | t :: _ :: _ :: _ :: l1 :: l2 :: l3 :: l4 :: payload =>
    let contentLength := ((l1 * 256 + l2) * 256 + l3) * 256 + l4
    let content := jsTrim (utf8Decode (payload.take contentLength))
    if content = [] then none else some (t == 1, content)
  | _ => none

/-- C5: the frame `[01 00 00 00 00 00 00 05]"hello"` decodes to exactly
one primary-origin line `hello`; a frame with payload length 0, and
more generally any frame whose payload trims to the empty string,
emits no line. -/
theorem C5_log_frame_decoding :
    decodeLogChunk ([1, 0, 0, 0, 0, 0, 0, 5] ++ ("hello").data.map Char.toNat) =
      some (true, ("hello").data) ∧
    (∀ (t a b c : Nat) (payload : List Nat),
      decodeLogChunk (t :: a :: b :: c :: 0 :: 0 :: 0 :: 0 :: payload) = none) ∧
    (∀ (t a b c l1 l2 l3 l4 : Nat) (payload : List Nat),
      jsTrim (utf8Decode (payload.take (((l1 * 256 + l2) * 256 + l3) * 256 + l4))) = [] →
      decodeLogChunk (t :: a :: b :: c :: l1 :: l2 :: l3 :: l4 :: payload) = none) := by
  refine ⟨by decide, ?_, ?_⟩
  · intro t a b c payload
    rfl
  · intro t a b c l1 l2 l3 l4 payload h
    simp [decodeLogChunk, h]

/-- Witness for `C5_log_frame_decoding`: a 1-byte payload holding a
single space trims to empty — no line is emitted. -/
theorem C5_witness : decodeLogChunk [1, 0, 0, 0, 0, 0, 0, 1, 32] = none :=
  C5_log_frame_decoding.2.2 1 0 0 0 0 0 0 1 [32] (by decide)

/-! ## Resource Monitor: `calculateCPUPercent` (lines 268–276)

JS numbers are modelled as exact rationals; for the spec's concrete
figures the IEEE-754 evaluation also lands exactly on 80. -/

structure CpuUsage where
  total_usage : Int

structure CpuStats where
  cpu_usage : CpuUsage
  system_cpu_usage : Int
  online_cpus : Int

structure PreCpuStats where
  cpu_usage : CpuUsage
  system_cpu_usage : Int

structure MemoryStats where
  usage : Int
  limit : Int

/-- The fields of the engine stats payload consumed by the monitor
(the optional `networks` block is not used by the CPU computation). -/
structure ContainerStatsResponse where
  memory_stats : MemoryStats
  cpu_stats : CpuStats
  precpu_stats : PreCpuStats

/-- `calculateCPUPercent`. -/
def calculateCPUPercent (stats : ContainerStatsResponse) : ℚ :=
  let cpuDelta : Int :=
    stats.cpu_stats.cpu_usage.total_usage - stats.precpu_stats.cpu_usage.total_usage
  let systemDelta : Int :=
    stats.cpu_stats.system_cpu_usage - stats.precpu_stats.system_cpu_usage
  let cpuCount := stats.cpu_stats.online_cpus
  if systemDelta > 0 ∧ cpuDelta > 0 then
    ((cpuDelta : ℚ) / (systemDelta : ℚ)) * (cpuCount : ℚ) * 100
  else 0

/-- C6: with a total-CPU delta of 200, a system delta of 1000 and 4
online CPUs the computed percentage is exactly 80; whenever either
delta is non-positive the result is 0. -/
theorem C6_cpu_percent :
    calculateCPUPercent ⟨⟨0, 0⟩, ⟨⟨1200⟩, 5000, 4⟩, ⟨⟨1000⟩, 4000⟩⟩ = 80 ∧
    (∀ s : ContainerStatsResponse,
      s.cpu_stats.system_cpu_usage - s.precpu_stats.system_cpu_usage ≤ 0 ∨
      s.cpu_stats.cpu_usage.total_usage - s.precpu_stats.cpu_usage.total_usage ≤ 0 →
      calculateCPUPercent s = 0) := by
  constructor
  · norm_num [calculateCPUPercent]
  · intro s h
    simp only [calculateCPUPercent]
    rw [if_neg]
    intro hcon
    rcases h with h | h
    · omega
    · omega

/-- Witness for `C6_cpu_percent`: a sample with a negative system
delta computes to 0. -/
theorem C6_witness :
    calculateCPUPercent ⟨⟨0, 0⟩, ⟨⟨300⟩, 500, 2⟩, ⟨⟨100⟩, 600⟩⟩ = 0 :=
  C6_cpu_percent.2 ⟨⟨0, 0⟩, ⟨⟨300⟩, 500, 2⟩, ⟨⟨100⟩, 600⟩⟩ (Or.inl (by decide))

/-! ## Log buffer and session attach (`WebSocketManager`, lines
161–197 and 360–402) -/

def MAX_LOGS : Nat := 100

/-- Lookup in the `logBuffers` map (keyed by `internalId`); an absent
key stands for the freshly-created empty buffer. -/
def lookupBuffer (buffers : List (String × List String)) (id : String) : List String :=
  match buffers with
  | [] => []
  | (k, v) :: rest => if k = id then v else lookupBuffer rest id

def setBuffer (buffers : List (String × List String)) (id : String) (buf : List String) :
    List (String × List String) :=
  match buffers with
  | [] => [(id, buf)]
  | (k, v) :: rest => if k = id then (k, buf) :: rest else (k, v) :: setBuffer rest id buf

/-- `addLogToBuffer` (lines 188–197): create-if-absent, `push`, and
`shift` (drop the oldest entry) when the buffer exceeds `MAX_LOGS`. -/
def addLogToBuffer (buffers : List (String × List String)) (id log : String) :
    List (String × List String) :=
  let buf := lookupBuffer buffers id ++ [log]
  setBuffer buffers id (if buf.length > MAX_LOGS then buf.drop 1 else buf)

/-- The last `n` elements of a list. -/
def lastN (n : Nat) (l : List String) : List String := l.drop (l.length - n)

structure AuthSuccessData where
  logs : List String
  state : String

/-- The `auth_success` payload built by `setupContainerSession` (lines
384–390): the source sends the literal `logs: []` together with the
inspected container state — the log buffer is not consulted. -/
def authSuccessEvent (_buffers : List (String × List String)) (_internalId state : String) :
    AuthSuccessData :=
  { logs := [], state := state }

theorem lookupBuffer_setBuffer (buffers : List (String × List String)) (id : String)
    (buf : List String) : lookupBuffer (setBuffer buffers id buf) id = buf := by
  induction buffers with
  | nil => simp [setBuffer, lookupBuffer]
  | cons p rest ih =>
    obtain ⟨k, v⟩ := p
    simp only [setBuffer]
    by_cases hk : k = id
    · rw [if_pos hk]
      simp [lookupBuffer, hk]
    · rw [if_neg hk]
      simp [lookupBuffer, hk, ih]

/-- C1 (counterexample): the claim fails as stated.  With one line
buffered for server `srv`, the `auth_success` event sent at attach
still carries `logs = []`, not the buffered backlog. -/
theorem C1_counterexample :
    lastN MAX_LOGS (lookupBuffer (addLogToBuffer [] "srv" "line1") "srv") = ["line1"] ∧
    (authSuccessEvent (addLogToBuffer [] "srv" "line1") "srv" "running").logs = [] ∧
    (authSuccessEvent (addLogToBuffer [] "srv" "line1") "srv" "running").logs ≠
      lastN MAX_LOGS (lookupBuffer (addLogToBuffer [] "srv" "line1") "srv") := by
  refine ⟨by decide, rfl, by decide⟩

/-- C1 (amended): the `auth_success` event's `logs` field is always the
empty list — the backlog is never replayed to a newly-attached session;
the per-server buffer itself does hold the last up-to-100 formatted
lines (append, then drop-oldest beyond 100). -/
theorem C1_amended :
    (∀ (buffers : List (String × List String)) (id state : String),
      (authSuccessEvent buffers id state).logs = []) ∧
    (∀ (buffers : List (String × List String)) (id log : String),
      (lookupBuffer buffers id).length ≤ MAX_LOGS →
      lookupBuffer (addLogToBuffer buffers id log) id =
        lastN MAX_LOGS (lookupBuffer buffers id ++ [log])) := by
  constructor
  · intro _ _ _
    rfl
  · intro buffers id log hlen
    simp only [addLogToBuffer, lookupBuffer_setBuffer, lastN]
    have hb : (lookupBuffer buffers id ++ [log]).length =
        (lookupBuffer buffers id).length + 1 := by simp
    by_cases h : (lookupBuffer buffers id ++ [log]).length > MAX_LOGS
    · rw [if_pos h]
      have h1 : (lookupBuffer buffers id ++ [log]).length - MAX_LOGS = 1 := by
        rw [hb] at h ⊢
        simp only [MAX_LOGS] at h hlen ⊢
        omega
      rw [h1]
    · rw [if_neg h]
      have h0 : (lookupBuffer buffers id ++ [log]).length - MAX_LOGS = 0 := by
        rw [hb] at h ⊢
        simp only [MAX_LOGS] at h ⊢
        omega
      rw [h0]
      simp

/-- Witness for `C1_amended` at a concrete buffer state. -/
theorem C1_amended_witness :
    (authSuccessEvent [] "srv" "running").logs = [] ∧
    lookupBuffer (addLogToBuffer [] "srv" "line1") "srv" =
      lastN MAX_LOGS (lookupBuffer [] "srv" ++ ["line1"]) :=
  ⟨C1_amended.1 [] "srv" "running", C1_amended.2 [] "srv" "line1" (by decide)⟩

/-! ## `handlePowerAction` (lines 503–547)

The engine-facing container operations are abstracted as their
observable results: the daemon only sees success or a thrown error
message.  Per the spec, the underlying engine treats stopping an
already-stopped container as a successful no-op; that behaviour lives
outside this repository, so it enters as a hypothesis. -/

inductive PowerAction
  | start
  | stop
  | restart

def actionName : PowerAction → String
  | .start => "start"
  | .stop => "stop"
  | .restart => "restart"

structure EngineContainer where
  startResult : Except String Unit
  stopResult : Except String Unit
  restartResult : Except String Unit
  inspectStatus : String
  inspectError : String

inductive SessionEvent
  | powerStatus (status action state error : String)
  | errorEvent (message : String)

def actionResult (c : EngineContainer) : PowerAction → Except String Unit
  | .start => c.startResult
  | .stop => c.stopResult
  | .restart => c.restartResult

/-- The `power_status.status` text (chalk colouring elided). -/
def powerStatusText (state : String) : String :=
  if state = "running" then "[Krypton Daemon] The power state was successfully changed!"
  else "[Krypton Daemon] Failed to change power state. If you are booting the server, this means the initial startup command failed/exited or is not valid."

/-- `handlePowerAction`: broadcast the announcement, run the engine
operation, then report either a `power_status` event (with the freshly
inspected state and engine error string) to the initiating session or,
when the engine call throws, an `error` event.  Result: (broadcast
daemon lines, event sent to the initiator). -/
def handlePowerAction (c : EngineContainer) (action : PowerAction) :
    List String × SessionEvent :=
  let announce := "Performing a " ++ actionName action ++ " action on server..."
  match actionResult c action with
  | .ok _ =>
    ([announce],
      .powerStatus (powerStatusText c.inspectStatus) (actionName action)
        c.inspectStatus c.inspectError)
  | .error e =>
    ([announce, "Failed to " ++ actionName action ++ " server: " ++ e], .errorEvent e)

/-- C3: when the engine's `stop` of the already-stopped container
reports success and inspection reports the stopped state, the
initiating session receives a `power_status` event carrying that state
— never an `error` event. -/
theorem C3_stop_idempotent (c : EngineContainer)
    (hstop : c.stopResult = Except.ok ())
    (hstate : c.inspectStatus = "stopped") :
    (handlePowerAction c PowerAction.stop).2 =
      SessionEvent.powerStatus (powerStatusText "stopped") "stop" "stopped" c.inspectError ∧
    ∀ m, (handlePowerAction c PowerAction.stop).2 ≠ SessionEvent.errorEvent m := by
  have hres : actionResult c PowerAction.stop = Except.ok () := hstop
  constructor
  · simp [handlePowerAction, hres, actionName, hstate]
  · intro m
    simp only [handlePowerAction, hres]
    exact fun h => SessionEvent.noConfusion h

/-- Witness for `C3_stop_idempotent` at a concrete engine state. -/
theorem C3_witness :
    (handlePowerAction ⟨Except.ok (), Except.ok (), Except.ok (), "stopped", ""⟩
        PowerAction.stop).2 =
      SessionEvent.powerStatus (powerStatusText "stopped") "stop" "stopped" "" :=
  (C3_stop_idempotent ⟨Except.ok (), Except.ok (), Except.ok (), "stopped", ""⟩ rfl rfl).1

/-! ## `runInstallation` (daemon `src/routes/servers.ts`, lines
162–302)

Every effectful step is abstracted as its result; the shape below
mirrors the source's `try` body, its `catch` (log and rethrow) and its
`finally` (best-effort force-removal of the install container whose
failure is caught and only logged). -/

structure InstallEnv where
  pullInstallImage : Except String Unit
  pullServerImage : Except String Unit
  mkdirVolume : Except String Unit
  writeConfigs : Except String Unit
  writeScript : Except String Unit
  createContainer : Except String Unit
  attachOutput : Except String Unit
  startContainer : Except String Unit
  waitExitCode : Except String Int
  removeResult : Except String Unit

structure InstallOutcome where
  result : Except String Unit
  removeAttempted : Bool

/-- The `try` body of `runInstallation`: each step's failure aborts the
job (no silent continuation); a non-zero install exit code is a hard
failure carrying the exit code. -/
def installSteps (env : InstallEnv) : Except String Unit := do
  let _ ← env.pullInstallImage
  let _ ← env.pullServerImage
  let _ ← env.mkdirVolume
  let _ ← env.writeConfigs
  let _ ← env.writeScript
  let _ ← env.createContainer
  let _ ← env.attachOutput
  let _ ← env.startContainer
  let code ← env.waitExitCode
  if code ≠ 0 then
    Except.error ("Installation failed with exit code " ++ toString code)
  else
    Except.ok ()

/-- `runInstallation` with its `finally` block: the install container
removal is attempted on every path (success, failure, or exception);
its outcome is discarded — a removal error is logged, never merged into
the job result. -/
def runInstallation (env : InstallEnv) : InstallOutcome :=
  let jobResult := installSteps env
  match env.removeResult with
  | .ok _ => { result := jobResult, removeAttempted := true }
  | .error _ => { result := jobResult, removeAttempted := true }

theorem installSteps_remove_irrel (env : InstallEnv) (x : Except String Unit) :
    installSteps { env with removeResult := x } = installSteps env := rfl

/-- C7: on every installation run the install-container removal is
attempted; the job's outcome never depends on the removal result; in
particular a run whose steps all succeed still reports success when the
removal fails. -/
theorem C7_install_cleanup (env : InstallEnv) (e : String) :
    (runInstallation env).removeAttempted = true ∧
    (runInstallation { env with removeResult := Except.error e }).result =
      (runInstallation env).result ∧
    (installSteps env = Except.ok () →
      (runInstallation { env with removeResult := Except.error e }).result =
        Except.ok ()) := by
  refine ⟨?_, ?_, ?_⟩
  · cases h : env.removeResult <;> simp [runInstallation, h]
  · cases h : env.removeResult <;>
      simp [runInstallation, h, installSteps_remove_irrel]
  · intro hok
    simp [runInstallation, installSteps_remove_irrel, hok]

/-- Witness for `C7_install_cleanup`: an all-successful run with exit
code 0 reports success even though the container removal fails. -/
theorem C7_witness :
    (runInstallation
        { pullInstallImage := Except.ok (), pullServerImage := Except.ok ()
          mkdirVolume := Except.ok (), writeConfigs := Except.ok ()
          writeScript := Except.ok (), createContainer := Except.ok ()
          attachOutput := Except.ok (), startContainer := Except.ok ()
          waitExitCode := Except.ok 0, removeResult := Except.error "removal failed" }).result =
      Except.ok () :=
  (C7_install_cleanup
    { pullInstallImage := Except.ok (), pullServerImage := Except.ok ()
      mkdirVolume := Except.ok (), writeConfigs := Except.ok ()
      writeScript := Except.ok (), createContainer := Except.ok ()
      attachOutput := Except.ok (), startContainer := Except.ok ()
      waitExitCode := Except.ok 0, removeResult := Except.ok () } "removal failed").2.2 rfl

/-! ## `startResourceMonitoring` (lines 325–358)

The 2-second `setInterval` and the `socket.on('close', () =>
clearInterval(interval))` handler, as a state machine over the ordered
events seen by one session: timer ticks and the connection close.  A
cleared interval never fires again, and nothing re-registers the timer
for the session (monitoring starts exactly once, at attach). -/

inductive TimerEvent
  | tick
  | close

/-- Whether the interval is still registered after an event. -/
def timerStep (active : Bool) : TimerEvent → Bool
  | .tick => active
  | .close => false

/-- Per event, whether a `stats` message is sent to the session: a tick
of a registered interval sends one; a cleared interval does not fire. -/
def timerEmits (active : Bool) : List TimerEvent → List Bool
  | [] => []
  | .tick :: rest => active :: timerEmits active rest
  | .close :: rest => false :: timerEmits false rest

theorem timerEmits_append (xs : List TimerEvent) :
    ∀ (s : Bool) (ys : List TimerEvent),
      timerEmits s (xs ++ ys) = timerEmits s xs ++ timerEmits (xs.foldl timerStep s) ys := by
  induction xs with
  | nil => intro s ys; rfl
  | cons e rest ih =>
    intro s ys
    cases e
    · simp only [List.cons_append, timerEmits, List.foldl_cons, timerStep, List.append_eq]
      rw [ih]
    · simp only [List.cons_append, timerEmits, List.foldl_cons, timerStep, List.append_eq]
      rw [ih]

theorem timerEmits_inactive (ys : List TimerEvent) :
    ∀ b ∈ timerEmits false ys, b = false := by
  induction ys with
  | nil => intro b h; cases h
  | cons e rest ih =>
    intro b h
    cases e
    · simp only [timerEmits] at h
      rcases List.mem_cons.mp h with rfl | h2
      · rfl
      · exact ih b h2
    · simp only [timerEmits] at h
      rcases List.mem_cons.mp h with rfl | h2
      · rfl
      · exact ih b h2

theorem timerEmits_length (s : Bool) :
    ∀ l : List TimerEvent, (timerEmits s l).length = l.length := by
  intro l
  induction l generalizing s with
  | nil => rfl
  | cons e rest ih =>
    cases e <;> simp [timerEmits, ih]

/-- C8: after the session's connection closes (running the handler that
clears the stats interval), no later event emits a stats message: every
emission entry past the close position is `false`, over every
event ordering. -/
theorem C8_stats_after_close (pre post : List TimerEvent) :
    ∀ b ∈ (timerEmits true (pre ++ TimerEvent.close :: post)).drop (pre.length + 1),
      b = false := by
  intro b hb
  rw [show pre ++ TimerEvent.close :: post = (pre ++ [TimerEvent.close]) ++ post by simp,
    timerEmits_append] at hb
  have hfold : (pre ++ [TimerEvent.close]).foldl timerStep true = false := by
    rw [List.foldl_append]
    rfl
  rw [hfold] at hb
  have hlen : (timerEmits true (pre ++ [TimerEvent.close])).length = pre.length + 1 := by
    rw [timerEmits_length]
    simp
  rw [← hlen, List.drop_left] at hb
  exact timerEmits_inactive post b hb

/-- Witness for `C8_stats_after_close`: one tick after the close, the
emission slot exists and holds `false`. -/
theorem C8_witness :
    false ∈ (timerEmits true (([] : List TimerEvent) ++ TimerEvent.close ::
        [TimerEvent.tick])).drop (([] : List TimerEvent).length + 1) ∧
    false = false :=
  ⟨by decide, C8_stats_after_close [] [TimerEvent.tick] false (by decide)⟩

end Argon
